import Mathlib

/-!
Verification development for the `gh-summary` digest tool (`src/main.rs`).

The core logic embedded here:
* the sanitizer (regex `UNSAFE_CHARS` / `WHITESPACE`, `Topic::fmt`),
* the classifier and filters of the event loop in `main`,
* the aggregation into `BTreeMap<Repo, BTreeMap<Topic, BTreeSet<Action>>>`
  (modelled as sorted association lists whose `entry` keeps a first-seen key),
* the window-validity check (`bail!` before the loop),
* the rendering loop (incl. the per-repo metadata lookup).

Machine integers (`u64` numbers) are modelled as `Nat`; timestamps as `Int`.
Fallible Rust code (`?` / `bail!`) is modelled with `Except`.
-/

namespace GhSummary

/-- `octocrab::models::Author`-like user: the program only reads `login`. -/
structure User where
  login : String
deriving DecidableEq, Repr

/-- `octocrab::models::issues::Issue`: fields read by `Topic::from` and the
classifier (`html_url`, `number`, `title`, `user`). -/
structure Issue where
  html_url : String
  number : Nat
  title : String
  user : User
deriving DecidableEq, Repr

/-- Issue comment: the classifier reads only `comment.user`. -/
structure IssueComment where
  user : User
deriving DecidableEq, Repr

/-- `octocrab::models::pulls::PullRequest`: `html_url`, `title` and `user`
are `Option`s in octocrab; `number` is mandatory. -/
structure PullRequest where
  html_url : Option String
  number : Nat
  title : Option String
  user : Option User
deriving DecidableEq, Repr

/-- `IssuesEventAction`; `unhandled` stands for the non-exhaustive variants
caught by the `_ => continue` arm. -/
inductive IssuesEventAction where
  | Opened | Closed | Reopened | Assigned | Unassigned | Labeled | Unlabeled
  | Edited
  | unhandled
deriving DecidableEq, Repr

/-- `IssueCommentEventAction`; `unhandled` is the catch-all arm. -/
inductive IssueCommentEventAction where
  | Created | Edited | Deleted
  | unhandled
deriving DecidableEq, Repr

/-- `PullRequestEventAction`; `unhandled` is the catch-all arm. -/
inductive PullRequestEventAction where
  | Opened | Closed | Reopened | Assigned | Unassigned
  | ReviewRequested | ReviewRequestRemoved | Labeled | Unlabeled | Synchronize
  | Edited
  | unhandled
deriving DecidableEq, Repr

/-- Action of a PR review event; `main.rs` never reads it (bound as part of
`evt` and ignored), so any value classifies the same way. -/
inductive PullRequestReviewEventAction where
  | Created | Edited | Dismissed
deriving DecidableEq, Repr

/-- Action of a PR review-comment event; likewise never read by `main.rs`. -/
inductive PullRequestReviewCommentEventAction where
  | Created | Edited | Deleted
deriving DecidableEq, Repr

/-- `octocrab::models::events::payload::EventPayload` restricted to the
fields `main.rs` reads; `other` stands for every payload kind caught by the
final `_ => continue` arm. -/
inductive EventPayload where
  | IssuesEvent (action : IssuesEventAction) (issue : Issue)
  | IssueCommentEvent (action : IssueCommentEventAction) (issue : Issue)
      (comment : IssueComment)
  | PullRequestEvent (action : PullRequestEventAction)
      (pull_request : PullRequest)
  | PullRequestReviewEvent (action : PullRequestReviewEventAction)
      (pull_request : PullRequest)
  | PullRequestReviewCommentEvent
      (action : PullRequestReviewCommentEventAction)
      (pull_request : PullRequest)
  | other
deriving DecidableEq, Repr

/-- The repo reference carried on a raw event (`event.repo`). -/
structure EventRepo where
  name : String
  url : String
deriving DecidableEq, Repr

/-- A raw activity event. `created_at` is a timestamp (seconds, `Int`);
`payload` collapses the two nested `Option`s of
`event.payload` / `payload.specific` (the code `continue`s on either `None`). -/
structure Event where
  public : Bool
  created_at : Int
  repo : EventRepo
  payload : Option EventPayload
deriving DecidableEq, Repr

/-- `struct Repo` of `main.rs`. Rust compares `Repo`s by `name` only; the
aggregation below bakes that into its key handling. -/
structure Repo where
  name : String
  url : String
deriving DecidableEq, Repr

/-- `struct Topic` of `main.rs`. Rust compares `Topic`s by `number` only. -/
structure Topic where
  url : String
  number : Nat
  title : String
deriving DecidableEq, Repr

/-- `enum Action`; `derive(Ord)` orders by declaration order, captured by
`Action.rank` below. -/
inductive Action where
  | Code | Write | Review | Comment | Assist
deriving DecidableEq, Repr

/-- Declaration order of `enum Action`, i.e. the derived `Ord`. -/
def Action.rank : Action → Nat
  | .Code => 0
  | .Write => 1
  | .Review => 2
  | .Comment => 3
  | .Assist => 4

/-- `Action::as_str`. -/
def Action.as_str : Action → String
  | .Code => "🔨"
  | .Write => "✍️"
  | .Review => "🕵️"
  | .Comment => "💬"
  | .Assist => "⚙️"

/-- Strict lexicographic order on characters (scalar values). -/
def charLt (a b : Char) : Bool := a.toNat < b.toNat

/-- Strict lexicographic order on char lists. -/
def listCharLt : List Char → List Char → Bool
  | [], [] => false
  | [], _ :: _ => true
  | _ :: _, [] => false
  | a :: as, b :: bs =>
    if charLt a b then true
    else if charLt b a then false
    else listCharLt as bs

/-- Strict order on strings: Rust's `String::cmp` (byte order = scalar order). -/
def strLt (a b : String) : Bool := listCharLt a.data b.data

/-- Character class `[0-9a-zA-Z /():;.&+-]` of the `UNSAFE_CHARS` regex:
the regex removes every character NOT in this set. -/
def permittedChar (c : Char) : Bool :=
  (('0' ≤ c && c ≤ '9') || ('a' ≤ c && c ≤ 'z') || ('A' ≤ c && c ≤ 'Z')
    || c == ' ' || c == '/' || c == '(' || c == ')' || c == ':' || c == ';'
    || c == '.' || c == '&' || c == '+' || c == '-')

/-- The Unicode `White_Space` class matched by the regex `\s`. -/
def regexWs (c : Char) : Bool :=
  c.toNat ∈ ([0x9, 0xA, 0xB, 0xC, 0xD, 0x20, 0x85, 0xA0, 0x1680,
    0x2000, 0x2001, 0x2002, 0x2003, 0x2004, 0x2005, 0x2006, 0x2007,
    0x2008, 0x2009, 0x200A, 0x2028, 0x2029, 0x202F, 0x205F, 0x3000] : List Nat)

/-- `WHITESPACE.replace_all(s, " ")`: every maximal run of `\s` characters
becomes a single space. `prevWs` records whether the previous character
belonged to a run already replaced. -/
def collapseWsAux : Bool → List Char → List Char
  | _, [] => []
  | prevWs, c :: rest =>
    if regexWs c then
      if prevWs then collapseWsAux true rest
      else ' ' :: collapseWsAux true rest
    else c :: collapseWsAux false rest

/-- `Topic::fmt`'s title pipeline: `UNSAFE_CHARS.replace_all(title, "")`
then `WHITESPACE.replace_all(…, " ")`. -/
def sanitize (s : String) : String :=
  String.mk (collapseWsAux false (s.data.filter permittedChar))

/-- `BTreeSet<Action>::insert`: sorted (by the derived `Ord`, i.e. `rank`)
insertion without duplication. -/
def insertAction : List Action → Action → List Action
  | [], a => [a]
  | b :: rest, a =>
    if a.rank < b.rank then a :: b :: rest
    else if a.rank = b.rank then b :: rest
    else b :: insertAction rest a

/-- Inner `BTreeMap<Topic, BTreeSet<Action>>`:
`.entry(topic).or_default().insert(action)`. The stored key `t0` is kept
when `t.number == t0.number`. -/
def insertTopicAction : List (Topic × List Action) → Topic → Action →
    List (Topic × List Action)
  | [], t, a => [(t, [a])]
  | (t0, as) :: rest, t, a =>
    if t.number < t0.number then (t, [a]) :: (t0, as) :: rest
    else if t.number = t0.number then (t0, insertAction as a) :: rest
    else (t0, as) :: insertTopicAction rest t a

/-- The aggregation `interactions_by_repo`. -/
abbrev Agg := List (Repo × List (Topic × List Action))

/-- Outer `BTreeMap<Repo, _>`:
`.entry(repo).or_default().entry(topic).or_default().insert(action)`.
The stored key `r0` is kept when `strLt` says the names are equal. -/
def aggInsert : Agg → Repo → Topic → Action → Agg
  | [], r, t, a => [(r, insertTopicAction [] t a)]
  | (r0, ts) :: rest, r, t, a =>
    if strLt r.name r0.name then (r, insertTopicAction [] t a) :: (r0, ts) :: rest
    else if strLt r0.name r.name then (r0, ts) :: aggInsert rest r t a
    else (r0, insertTopicAction ts t a) :: rest

/-- `impl From<Issue> for Topic`. -/
def Topic.fromIssue (issue : Issue) : Topic :=
  { url := issue.html_url, number := issue.number, title := issue.title }

/-- `impl TryFrom<PullRequest> for Topic`: `context("HTML URL missing")?`
then `context("PR title missing")?`. -/
def Topic.tryFromPR (pr : PullRequest) : Except String Topic :=
  match pr.html_url with
  | none => .error "HTML URL missing"
  | some u =>
    match pr.title with
    | none => .error "PR title missing"
    | some t => .ok { url := u, number := pr.number, title := t }

/-- The `match payload` in `main`: `Ok none` models `continue` (skip),
`Ok (some _)` a classified `(topic, action)` pair, `error` the `?` on
`Topic::try_from` (with its `context("convert PR data")`). -/
def classifyPayload (username : String) : EventPayload →
    Except String (Option (Topic × Action))
  | .IssuesEvent action issue =>
    match action with
    | .Opened => .ok (some (Topic.fromIssue issue, .Write))
    | .Closed | .Reopened | .Assigned | .Unassigned | .Labeled | .Unlabeled =>
      .ok (some (Topic.fromIssue issue, .Assist))
    | .Edited =>
      .ok (some (Topic.fromIssue issue,
        if issue.user.login = username then .Comment else .Assist))
    | .unhandled => .ok none
  | .IssueCommentEvent action issue comment =>
    match action with
    | .Created => .ok (some (Topic.fromIssue issue, .Comment))
    | .Edited =>
      .ok (some (Topic.fromIssue issue,
        if comment.user.login = username then .Comment else .Assist))
    | .Deleted => .ok (some (Topic.fromIssue issue, .Assist))
    | .unhandled => .ok none
  | .PullRequestEvent action pr =>
    match action with
    | .Opened => (Topic.tryFromPR pr).map (fun t => some (t, .Code))
    | .Closed | .Reopened | .Assigned | .Unassigned | .ReviewRequested
    | .ReviewRequestRemoved | .Labeled | .Unlabeled | .Synchronize =>
      (Topic.tryFromPR pr).map (fun t => some (t, .Assist))
    | .Edited =>
      (Topic.tryFromPR pr).map (fun t => some (t,
        if (pr.user.map (fun u => u.login == username)).getD false
        then Action.Comment else Action.Assist))
    | .unhandled => .ok none
  | .PullRequestReviewEvent _ pr =>
    (Topic.tryFromPR pr).map (fun t => some (t, .Review))
  | .PullRequestReviewCommentEvent _ pr =>
    (Topic.tryFromPR pr).map (fun t => some (t, .Review))
  | .other => .ok none

/-- CLI arguments the core reads. `event_cutoff` is the duration in seconds
(`humantime` duration); the cutoff timestamp is `now - event_cutoff`. -/
structure Args where
  event_cutoff : Nat
  n_events : Nat
  include_orgs : Option (List String)
  exclude_orgs : Option (List String)
  username : String
deriving DecidableEq, Repr

/-- The two `Err`/`bail!` shapes of `main`. -/
inductive RunError where
  | windowTooNarrow (n_events : Nat) (event_cutoff : Nat)
  | missingField (msg : String)
deriving DecidableEq, Repr

/-- The tail of the loop body after the filters: the payload
`let … else continue`s, classification, and the aggregation insertion. -/
def handlePayload (args : Args) (agg : Agg) (e : Event) : Except RunError Agg :=
  match e.payload with
  | none => .ok agg
  | some p =>
    match classifyPayload args.username p with
    | .error msg => .error (.missingField msg)
    | .ok none => .ok agg
    | .ok (some (t, a)) =>
      .ok (aggInsert agg { name := e.repo.name, url := e.repo.url } t a)

/-- One iteration of the `for event in events` loop: the four `continue`
filters in source order, then `handlePayload`. -/
def step (args : Args) (cutoff : Int) (agg : Agg) (e : Event) :
    Except RunError Agg :=
  if !e.public then .ok agg
  else if (match args.include_orgs with
      | some orgs => !orgs.any (fun org => e.repo.name.startsWith (org ++ "/"))
      | none => false) then .ok agg
  else if (match args.exclude_orgs with
      | some orgs => orgs.any (fun org => e.repo.name.startsWith (org ++ "/"))
      | none => false) then .ok agg
  else if e.created_at < cutoff then .ok agg
  else handlePayload args agg e

/-- The whole `for` loop, folding events left to right. -/
def foldEvents (args : Args) (cutoff : Int) (agg : Agg) :
    List Event → Except RunError Agg
  | [] => .ok agg
  | e :: rest =>
    match step args cutoff agg e with
    | .error err => .error err
    | .ok agg2 => foldEvents args cutoff agg2 rest

/-- `main` up to the aggregation: the window-validity `bail!` (checked once
over the full fetched list, before the loop), then the loop. -/
def runDigest (args : Args) (now : Int) (events : List Event) :
    Except RunError Agg :=
  let cutoff : Int := now - (args.event_cutoff : Int)
  if events.any (fun e => decide (e.created_at < cutoff)) then
    foldEvents args cutoff [] events
  else
    .error (.windowTooNarrow args.n_events args.event_cutoff)

/-- `octocrab::models::Repository`: the render loop reads only `html_url`. -/
structure Repository where
  html_url : Option String
deriving DecidableEq, Repr

/-- `Display for Topic`: `[#{number}]({url}) (_{title}_)` with the title
sanitized. -/
def Topic.render (t : Topic) : String :=
  "[#" ++ toString t.number ++ "](" ++ t.url ++ ") (_" ++ sanitize t.title ++ "_)"

/-- The inner topic loop body for one `(topic, actions)` entry at
`topic_idx > 0 → leading comma`; always the EN space, the action symbols in
`BTreeSet` order, a space and the topic. -/
def renderTopicEntry (p : Topic × List Action) : String :=
  " " ++ String.join (p.2.map Action.as_str) ++ " " ++ p.1.render

/-- The topic loop: comma before every entry except the first. -/
def renderTopics : List (Topic × List Action) → String
  | [] => ""
  | p :: rest =>
    renderTopicEntry p ++ String.join (rest.map (fun q => "," ++ renderTopicEntry q))

/-- One repo's full output line: `- *[{name}]({html_url}):*`, the topic
entries, and the final `println!` newline. -/
def renderRepoLine (name html_url : String) (ts : List (Topic × List Action)) :
    String :=
  "- *[" ++ name ++ "](" ++ html_url ++ "):*" ++ renderTopics ts ++ "\n"

/-- The errors of the render loop: the lookup's `with_context` and the
`context("no html URL for repo")`. -/
inductive RenderError where
  | getRepoFailed (url : String)
  | noHtmlUrl
deriving DecidableEq, Repr

/-- The render loop over the aggregation. `lookup` is the external
repo-metadata collaborator keyed by the stored repo url (`None` models a
transport failure). Returns `(emitted text, failure if any)`. -/
def renderRun (lookup : String → Option Repository) :
    Agg → String × Option RenderError
  | [] => ("", none)
  | (r, ts) :: rest =>
    match lookup r.url with
    | none => ("", some (.getRepoFailed r.url))
    | some meta =>
      match meta.html_url with
      | none => ("", some .noHtmlUrl)
      | some h =>
        let res := renderRun lookup rest
        (renderRepoLine r.name h ts ++ res.1, res.2)

/-- Whether the render loop can process one aggregation entry: the lookup
succeeds and the metadata has a display URL. -/
def repoOk (lookup : String → Option Repository)
    (p : Repo × List (Topic × List Action)) : Bool :=
  match lookup p.1.url with
  | none => false
  | some meta => meta.html_url.isSome

/-- The line the render loop emits for one aggregation entry (defaulting to
`""` when the lookup fails; only used on entries with `repoOk`). -/
def renderedLine (lookup : String → Option Repository)
    (p : Repo × List (Topic × List Action)) : String :=
  match lookup p.1.url with
  | none => ""
  | some meta =>
    match meta.html_url with
    | none => ""
    | some h => renderRepoLine p.1.name h p.2

/-- Modelled from the spec: the filtering precedence of §4.2 — (1) public,
(2) include-org allow-list (`org/` name prefixes, absent list means no
restriction), (3) exclude-org deny-list, (4) creation time not older than
the cutoff (exactly at the cutoff passes). -/
def specPasses (args : Args) (cutoff : Int) (e : Event) : Bool :=
  e.public
  && (match args.include_orgs with
      | some orgs => orgs.any (fun org => e.repo.name.startsWith (org ++ "/"))
      | none => true)
  && (match args.exclude_orgs with
      | some orgs => !orgs.any (fun org => e.repo.name.startsWith (org ++ "/"))
      | none => true)
  && decide (cutoff ≤ e.created_at)

/-- Modelled from the spec: the payload → interaction-kind table of §4.2
together with §4.2's PR `MissingField` rule (conversion fails when the PR
has no display URL or no title). `ok none` = "event skipped, no error". -/
def specClassify (username : String) : EventPayload → Except Unit (Option Action)
  | .IssuesEvent action issue =>
    match action with
    | .Opened => .ok (some .Write)
    | .Closed | .Reopened | .Assigned | .Unassigned | .Labeled | .Unlabeled =>
      .ok (some .Assist)
    | .Edited =>
      .ok (some (if issue.user.login = username then .Comment else .Assist))
    | .unhandled => .ok none
  | .IssueCommentEvent action _ comment =>
    match action with
    | .Created => .ok (some .Comment)
    | .Edited =>
      .ok (some (if comment.user.login = username then .Comment else .Assist))
    | .Deleted => .ok (some .Assist)
    | .unhandled => .ok none
  | .PullRequestEvent action pr =>
    if action = .unhandled then .ok none
    else if pr.html_url = none ∨ pr.title = none then .error ()
    else
      match action with
      | .Opened => .ok (some .Code)
      | .Edited =>
        .ok (some (if (pr.user.map (fun u => u.login == username)).getD false
          then Action.Comment else Action.Assist))
      | _ => .ok (some .Assist)
  | .PullRequestReviewEvent _ pr =>
    if pr.html_url = none ∨ pr.title = none then .error () else .ok (some .Review)
  | .PullRequestReviewCommentEvent _ pr =>
    if pr.html_url = none ∨ pr.title = none then .error () else .ok (some .Review)
  | .other => .ok none

/-! ## Query helpers and predicates used by the statements -/
instance {ε α : Type} [DecidableEq ε] [DecidableEq α] : DecidableEq (Except ε α)
  | .error x, .error y =>
    if h : x = y then .isTrue (by rw [h]) else .isFalse (by simp [h])
  | .error _, .ok _ => .isFalse (by simp)
  | .ok _, .error _ => .isFalse (by simp)
  | .ok x, .ok y =>
    if h : x = y then .isTrue (by rw [h]) else .isFalse (by simp [h])

/-- First aggregation entry whose repo has the given name (what the
`BTreeMap` lookup on a `Repo` key with that name would return). -/
def findRepo : Agg → String → Option (Repo × List (Topic × List Action))
  | [], _ => none
  | (r0, ts) :: rest, name =>
    if r0.name = name then some (r0, ts) else findRepo rest name

/-- First topic entry with the given number. -/
def findTopic : List (Topic × List Action) → Nat → Option (Topic × List Action)
  | [], _ => none
  | (t0, as) :: rest, n =>
    if t0.number = n then some (t0, as) else findTopic rest n

/-- The event's payload is PR-derived, reaches `Topic::try_from` (i.e. its
action is not in a `_ => continue` arm), and the PR lacks its display URL
or its title. -/
def prMalformed (e : Event) : Bool :=
  match e.payload with
  | some (.PullRequestEvent a pr) =>
    decide (a ≠ .unhandled) && (pr.html_url.isNone || pr.title.isNone)
  | some (.PullRequestReviewEvent _ pr) => pr.html_url.isNone || pr.title.isNone
  | some (.PullRequestReviewCommentEvent _ pr) =>
    pr.html_url.isNone || pr.title.isNone
  | _ => false

/-- Strict sortedness of an action set by the derived `Ord` (`rank`). -/
abbrev sortedActions (as : List Action) : Prop :=
  as.Pairwise (fun x y => x.rank < y.rank)

/-- Strict sortedness of an inner topic map by topic number. -/
abbrev sortedTopics (ts : List (Topic × List Action)) : Prop :=
  ts.Pairwise (fun x y => x.1.number < y.1.number)

/-- The `BTreeMap` invariant of the aggregation: outer entries strictly
ascending by repo name, inner entries strictly ascending by topic number. -/
abbrev sortedAgg (agg : Agg) : Prop :=
  agg.Pairwise (fun p q => strLt p.1.name q.1.name = true)
  ∧ ∀ p ∈ agg, sortedTopics p.2

/-- Forgets topics/urls, keeping only the interaction kind (or the
skip/error verdict) of a classification result; used to compare the
classifier with the spec's kind table. -/
def kindOf : Except String (Option (Topic × Action)) → Except Unit (Option Action)
  | .error _ => .error ()
  | .ok o => .ok (o.map Prod.snd)

/-- Two sightings of topic number 5 with different titles/urls. -/
def cxIssueA : Issue :=
  { html_url := "urlA", number := 5, title := "A", user := { login := "me" } }

def cxIssueB : Issue :=
  { html_url := "urlB", number := 5, title := "B", user := { login := "me" } }

def cxRepo : EventRepo := { name := "acme/widgets", url := "api/acme/widgets" }

def cxE1 : Event :=
  { public := true, created_at := 10, repo := cxRepo,
    payload := some (.IssuesEvent .Opened cxIssueA) }

def cxE2 : Event :=
  { public := true, created_at := 10, repo := cxRepo,
    payload := some (.IssuesEvent .Closed cxIssueB) }

/-- An old event, present only so the window check passes. -/
def cxOld : Event :=
  { public := true, created_at := -100, repo := cxRepo, payload := none }

def cxArgs : Args :=
  { event_cutoff := 100, n_events := 10, include_orgs := none,
    exclude_orgs := none, username := "me" }

/-- Full well-formedness: the `BTreeMap`/`BTreeSet` sortedness at all three
levels. -/
abbrev wfAgg (agg : Agg) : Prop :=
  sortedAgg agg ∧ ∀ p ∈ agg, ∀ q ∈ p.2, sortedActions q.2

/-- A metadata collaborator that resolves only the first repo. -/
def c8Lookup : String → Option Repository :=
  fun u => if u = "api/r1" then some { html_url := some "h1" } else none

/-- Two aggregated repos; the second one's lookup fails. -/
def c8Agg : Agg :=
  [({ name := "r1", url := "api/r1" },
    [({ url := "t1", number := 1, title := "T" }, [.Code])]),
   ({ name := "r2", url := "api/r2" },
    [({ url := "t2", number := 2, title := "U" }, [.Review])])]

/-- Concatenation of a list of output fragments (`print!` in sequence). -/
def concatStrings : List String → String
  | [] => ""
  | s :: rest => s ++ concatStrings rest

/-! ## Theorems -/

theorem listCharLt_irrefl (l : List Char) : listCharLt l l = false := by
  induction l with
  | nil => rfl
  | cons a as ih => simp [listCharLt, charLt, ih]

theorem listCharLt_trans {a b c : List Char} (h1 : listCharLt a b = true)
    (h2 : listCharLt b c = true) : listCharLt a c = true := by
  induction a generalizing b c with
  | nil =>
    cases b with
    | nil => simp [listCharLt] at h1
    | cons b bs => cases c with
      | nil => simp [listCharLt] at h2
      | cons c cs => simp [listCharLt]
  | cons a as ih =>
    cases b with
    | nil => simp [listCharLt] at h1
    | cons b bs =>
      cases c with
      | nil => simp [listCharLt] at h2
      | cons c cs =>
        simp only [listCharLt, charLt, decide_eq_true_eq] at h1 h2 ⊢
        split at h1
        · rename_i hab
          split
          · rfl
          · rename_i hac
            split at h2
            · rename_i hbc; omega
            · split at h2
              · simp at h2
              · rename_i hbc hcb; omega
        · rename_i hab
          split at h1
          · simp at h1
          · rename_i hba
            split at h2
            · rename_i hbc
              split
              · rfl
              · rename_i hac; omega
            · split at h2
              · simp at h2
              · rename_i hbc hcb
                split
                · rfl
                · split
                  · rename_i hca; omega
                  · exact ih h1 h2

theorem listCharLt_antisymm {a b : List Char} (h1 : listCharLt a b = false)
    (h2 : listCharLt b a = false) : a = b := by
  induction a generalizing b with
  | nil =>
    cases b with
    | nil => rfl
    | cons b bs => simp [listCharLt] at h1
  | cons a as ih =>
    cases b with
    | nil => simp [listCharLt] at h2
    | cons b bs =>
      simp only [listCharLt, charLt, decide_eq_true_eq] at h1 h2
      rcases Nat.lt_trichotomy a.toNat b.toNat with h | h | h
      · rw [if_pos h] at h1; simp at h1
      · have hc : a = b := Char.ext (UInt32.ext h)
        subst hc
        rw [if_neg (by omega), if_neg (by omega)] at h1
        rw [if_neg (by omega), if_neg (by omega)] at h2
        rw [ih h1 h2]
      · rw [if_pos h] at h2; simp at h2

theorem strLt_irrefl (s : String) : strLt s s = false := listCharLt_irrefl _

theorem strLt_trans {a b c : String} (h1 : strLt a b = true)
    (h2 : strLt b c = true) : strLt a c = true := listCharLt_trans h1 h2

theorem strLt_antisymm {a b : String} (h1 : strLt a b = false)
    (h2 : strLt b a = false) : a = b := by
  cases a; cases b
  exact congrArg String.mk (listCharLt_antisymm h1 h2)

/-! ## Shared lemmas -/
theorem insertAction_idem (as : List Action) (a : Action) :
    insertAction (insertAction as a) a = insertAction as a := by
  induction as with
  | nil => simp [insertAction]
  | cons b rest ih =>
    by_cases h1 : a.rank < b.rank
    · have h2 : ¬ a.rank < a.rank := by omega
      simp [insertAction, h1, h2]
    · by_cases h3 : a.rank = b.rank
      · simp [insertAction, h1, h3]
      · simp [insertAction, h1, h3, ih]

theorem insertTopicAction_idem (ts : List (Topic × List Action)) (t : Topic)
    (a : Action) :
    insertTopicAction (insertTopicAction ts t a) t a = insertTopicAction ts t a := by
  induction ts with
  | nil => simp [insertTopicAction, insertAction]
  | cons p rest ih =>
    obtain ⟨t0, as⟩ := p
    by_cases h1 : t.number < t0.number
    · have h2 : ¬ t.number < t.number := by omega
      simp [insertTopicAction, h1, h2, insertAction]
    · by_cases h3 : t.number = t0.number
      · simp [insertTopicAction, h1, h3, insertAction_idem]
      · simp [insertTopicAction, h1, h3, ih]

/-- C1: for every event payload that reaches classification, the classifier
assigns exactly the interaction kind of the spec's payload table
(issue-opened ⇒ Write; issue status changes ⇒ Assist; issue-edited ⇒
Comment for the digest user's own issue, else Assist; comment
created/edited-own ⇒ Comment, edited-other/deleted ⇒ Assist; PR-opened ⇒
Code; PR status changes ⇒ Assist; PR-edited ⇒ Comment for one's own PR,
else Assist; PR review and review-comment events ⇒ Review for any action);
any other payload kind or unhandled action produces nothing and no error. -/
theorem spec_C1_classifier_table (u : String) (p : EventPayload) :
    kindOf (classifyPayload u p) = specClassify u p := by
  cases p with
  | IssuesEvent a issue =>
    cases a <;> simp [classifyPayload, specClassify, kindOf]
  | IssueCommentEvent a issue comment =>
    cases a <;> simp [classifyPayload, specClassify, kindOf]
  | PullRequestEvent a pr =>
    cases a <;> cases hu : pr.html_url <;> cases ht : pr.title <;>
      simp [classifyPayload, specClassify, kindOf, Topic.tryFromPR, hu, ht,
        Except.map]
  | PullRequestReviewEvent a pr =>
    cases hu : pr.html_url <;> cases ht : pr.title <;>
      simp [classifyPayload, specClassify, kindOf, Topic.tryFromPR, hu, ht,
        Except.map]
  | PullRequestReviewCommentEvent a pr =>
    cases hu : pr.html_url <;> cases ht : pr.title <;>
      simp [classifyPayload, specClassify, kindOf, Topic.tryFromPR, hu, ht,
        Except.map]
  | other => rfl

theorem step_eq_filters (args : Args) (cutoff : Int) (agg : Agg) (e : Event) :
    step args cutoff agg e =
      if specPasses args cutoff e then handlePayload args agg e else .ok agg := by
  obtain ⟨ec, nev, io, xo, un⟩ := args
  obtain ⟨pub, ca, er, pay⟩ := e
  cases pub with
  | false => simp [step, specPasses]
  | true =>
    cases io with
    | none =>
      cases xo with
      | none =>
        by_cases ht : ca < cutoff
        · simp [step, specPasses, ht, Int.not_le.mpr ht]
        · simp [step, specPasses, ht, Int.not_lt.mp ht]
      | some l2 =>
        by_cases h2 : l2.any (fun org => er.name.startsWith (org ++ "/"))
        · simp [step, specPasses, h2]
        · by_cases ht : ca < cutoff
          · simp [step, specPasses, h2, ht, Int.not_le.mpr ht]
          · simp [step, specPasses, h2, ht, Int.not_lt.mp ht]
    | some l1 =>
      by_cases h1 : l1.any (fun org => er.name.startsWith (org ++ "/"))
      · cases xo with
        | none =>
          by_cases ht : ca < cutoff
          · simp [step, specPasses, h1, ht, Int.not_le.mpr ht]
          · simp [step, specPasses, h1, ht, Int.not_lt.mp ht]
        | some l2 =>
          by_cases h2 : l2.any (fun org => er.name.startsWith (org ++ "/"))
          · simp [step, specPasses, h1, h2]
          · by_cases ht : ca < cutoff
            · simp [step, specPasses, h1, h2, ht, Int.not_le.mpr ht]
            · simp [step, specPasses, h1, h2, ht, Int.not_lt.mp ht]
      · cases xo with
        | none => simp [step, specPasses, h1]
        | some l2 => simp [step, specPasses, h1]

/-- C2: an event contributes to the aggregation only if every filter
passes, checked in source order — public, include-org allow-list (repo
name starts with a listed `org/` prefix, absent list unrestricted),
exclude-org deny-list (overlap excluded), and creation time not strictly
older than the cutoff (exactly at the cutoff passes); a failing filter
yields the unchanged aggregation and no error. -/
theorem spec_C2_filters (args : Args) (cutoff : Int) (agg : Agg) (e : Event) :
    step args cutoff agg e =
      if specPasses args cutoff e then handlePayload args agg e else .ok agg :=
  step_eq_filters args cutoff agg e

/-- C9: folding the same classified `(repo, topic, kind)` triple into the
aggregation twice yields exactly the structure of folding it once — set
semantics for interaction kinds, and the fold itself cannot fail. -/
theorem spec_C9_idempotent_fold (agg : Agg) (r : Repo) (t : Topic) (a : Action) :
    aggInsert (aggInsert agg r t a) r t a = aggInsert agg r t a := by
  induction agg with
  | nil => simp [aggInsert, strLt_irrefl, insertTopicAction_idem]
  | cons p rest ih =>
    obtain ⟨r0, ts⟩ := p
    by_cases h1 : strLt r.name r0.name = true
    · simp [aggInsert, h1, strLt_irrefl, insertTopicAction_idem]
    · by_cases h2 : strLt r0.name r.name = true
      · simp [aggInsert, h1, h2, ih]
      · simp [aggInsert, h1, h2, insertTopicAction_idem]

/-- C10: a PR-edited event whose payload records no PR author classifies as
Assist, never Comment — the Comment branch needs a present author equal to
the digest-run username. -/
theorem spec_C10_absent_author (u : String) (pr : PullRequest)
    (h : pr.user = none) :
    classifyPayload u (.PullRequestEvent .Edited pr)
      = (Topic.tryFromPR pr).map (fun t => some (t, Action.Assist)) := by
  simp [classifyPayload, h]

/-- Witness for C10 at a concrete author-less PR. -/
theorem spec_C10_absent_author_witness :
    classifyPayload "me"
        (.PullRequestEvent .Edited
          { html_url := some "u", number := 7, title := some "T", user := none })
      = (Topic.tryFromPR
          { html_url := some "u", number := 7, title := some "T", user := none }).map
          (fun t => some (t, Action.Assist)) :=
  spec_C10_absent_author "me" _ rfl

theorem handlePayload_error_missing {args : Args} {agg : Agg} {e : Event}
    {err : RunError} (h : handlePayload args agg e = .error err) :
    ∃ m, err = .missingField m := by
  unfold handlePayload at h
  cases hp : e.payload with
  | none => rw [hp] at h; exact absurd h (by simp)
  | some p =>
    rw [hp] at h
    dsimp only at h
    cases hc : classifyPayload args.username p with
    | error m => rw [hc] at h; simp at h; exact ⟨m, h.symm⟩
    | ok o =>
      rw [hc] at h
      cases o with
      | none => simp at h
      | some pair => simp at h

theorem step_error_missing {args : Args} {cutoff : Int} {agg : Agg} {e : Event}
    {err : RunError} (h : step args cutoff agg e = .error err) :
    ∃ m, err = .missingField m := by
  unfold step at h
  split at h
  · simp at h
  · split at h
    · simp at h
    · split at h
      · simp at h
      · split at h
        · simp at h
        · exact handlePayload_error_missing h

theorem foldEvents_no_window {args : Args} {cutoff : Int} {agg : Agg}
    {events : List Event} {n d : Nat}
    (h : foldEvents args cutoff agg events = .error (.windowTooNarrow n d)) :
    False := by
  induction events generalizing agg with
  | nil => simp [foldEvents] at h
  | cons e rest ih =>
    unfold foldEvents at h
    cases hs : step args cutoff agg e with
    | error err =>
      rw [hs] at h
      simp at h
      obtain ⟨m, hm⟩ := step_error_missing hs
      rw [hm] at h
      exact absurd h.symm (by simp)
    | ok agg2 => rw [hs] at h; exact ih h

/-- C3: the run fails with the `bail!`ed window error — carrying the
requested event count and window duration — exactly when no fetched
event's creation time is strictly older than the cutoff; the check covers
the whole fetched list, before any per-event filtering. -/
theorem spec_C3_window_check (args : Args) (now : Int) (events : List Event) :
    runDigest args now events
        = .error (.windowTooNarrow args.n_events args.event_cutoff)
      ↔ ∀ e ∈ events, ¬(e.created_at < now - (args.event_cutoff : Int)) := by
  unfold runDigest
  by_cases hany :
      events.any (fun e => decide (e.created_at < now - (args.event_cutoff : Int)))
      = true
  · rw [if_pos hany]
    constructor
    · intro h
      exact absurd h (fun hc => foldEvents_no_window hc)
    · intro h
      simp only [List.any_eq_true, decide_eq_true_eq] at hany
      obtain ⟨e, he, holder⟩ := hany
      exact absurd holder (h e he)
  · rw [if_neg hany]
    constructor
    · intro _ e he holder
      exact hany (by
        simp only [List.any_eq_true, decide_eq_true_eq]
        exact ⟨e, he, holder⟩)
    · intro _
      rfl

theorem findTopic_eq_none_iff (ts : List (Topic × List Action)) (n : Nat) :
    findTopic ts n = none ↔ ∀ p ∈ ts, p.1.number ≠ n := by
  induction ts with
  | nil => simp [findTopic]
  | cons p rest ih =>
    obtain ⟨t0, as⟩ := p
    by_cases h : t0.number = n
    · simp [findTopic, h]
    · simp [findTopic, h, ih]

theorem findRepo_eq_none_iff (agg : Agg) (name : String) :
    findRepo agg name = none ↔ ∀ p ∈ agg, p.1.name ≠ name := by
  induction agg with
  | nil => simp [findRepo]
  | cons p rest ih =>
    obtain ⟨r0, ts⟩ := p
    by_cases h : r0.name = name
    · simp [findRepo, h]
    · simp [findRepo, h, ih]

theorem insertTopic_first_seen (ts : List (Topic × List Action)) (t : Topic)
    (a : Action) (hs : sortedTopics ts) :
    (∀ t0 as0, findTopic ts t.number = some (t0, as0) →
      findTopic (insertTopicAction ts t a) t.number
        = some (t0, insertAction as0 a)) ∧
    (findTopic ts t.number = none →
      findTopic (insertTopicAction ts t a) t.number = some (t, [a])) := by
  induction ts with
  | nil =>
    refine ⟨fun t0 as0 h => by simp [findTopic] at h, fun _ => ?_⟩
    simp [insertTopicAction, findTopic]
  | cons p rest ih =>
    obtain ⟨t0, as⟩ := p
    unfold sortedTopics at hs
    rw [List.pairwise_cons] at hs
    obtain ⟨hhead, htail⟩ := hs
    by_cases h1 : t.number < t0.number
    · have hne : t0.number ≠ t.number := by omega
      have hnone : findTopic rest t.number = none := by
        rw [findTopic_eq_none_iff]
        intro q hq
        have hlt := hhead q hq
        dsimp only at hlt
        omega
      constructor
      · intro t1 as1 hfind
        rw [show findTopic ((t0, as) :: rest) t.number = findTopic rest t.number
          from by simp [findTopic, hne], hnone] at hfind
        exact absurd hfind (by simp)
      · intro _
        simp [insertTopicAction, h1, findTopic]
    · by_cases h2 : t.number = t0.number
      · have hcond : t0.number = t.number := h2.symm
        have hfind_eq : findTopic ((t0, as) :: rest) t.number = some (t0, as) := by
          unfold findTopic
          rw [if_pos hcond]
        have hins : insertTopicAction ((t0, as) :: rest) t a
            = (t0, insertAction as a) :: rest := by
          unfold insertTopicAction
          rw [if_neg h1, if_pos h2]
        constructor
        · intro t1 as1 hf1
          rw [hfind_eq] at hf1
          simp only [Option.some.injEq, Prod.mk.injEq] at hf1
          obtain ⟨hq1, hq2⟩ := hf1
          subst hq1
          subst hq2
          rw [hins]
          unfold findTopic
          rw [if_pos hcond]
        · intro hn
          rw [hfind_eq] at hn
          exact absurd hn (by simp)
      · have hne : t0.number ≠ t.number := fun hc => h2 hc.symm
        have hstep : insertTopicAction ((t0, as) :: rest) t a
            = (t0, as) :: insertTopicAction rest t a := by
          simp [insertTopicAction, h1, h2]
        obtain ⟨ih1, ih2⟩ := ih htail
        constructor
        · intro t1 as1 hfind
          simp only [findTopic, hne, if_false] at hfind
          rw [hstep]
          simp only [findTopic, hne, if_false]
          exact ih1 t1 as1 hfind
        · intro hnone
          simp only [findTopic, hne, if_false] at hnone
          rw [hstep]
          simp only [findTopic, hne, if_false]
          exact ih2 hnone

/-- C4-cex: the final aggregation is NOT stable under reordering of the
fetched page — two sightings of topic 5 with different titles, folded in
the two orders, give different aggregations (the retained title/url is the
first-seen one of each run). -/
theorem spec_C4_order_counterexample :
    runDigest cxArgs 100 [cxOld, cxE1, cxE2]
      ≠ runDigest cxArgs 100 [cxOld, cxE2, cxE1] := by decide

/-- C4 (amended): topics are identified by number only and repos by name
only; when a key repeats, the existing entry is merged into and its
first-seen fields (repo url; topic title/url) are never overwritten — so
the retained fields are those of the earliest sighting in the order the
events were folded (the aggregation is not order-independent when
sightings disagree, see the counterexample). -/
theorem spec_C4_first_seen (agg : Agg) (r : Repo) (t : Topic) (a : Action)
    (hs : sortedAgg agg) (r0 : Repo) (ts0 : List (Topic × List Action))
    (hf : findRepo agg r.name = some (r0, ts0)) :
    ∃ ts1, findRepo (aggInsert agg r t a) r.name = some (r0, ts1) ∧
      (∀ t0 as0, findTopic ts0 t.number = some (t0, as0) →
        findTopic ts1 t.number = some (t0, insertAction as0 a)) ∧
      (findTopic ts0 t.number = none →
        findTopic ts1 t.number = some (t, [a])) := by
  obtain ⟨hpair, hinner⟩ := hs
  induction agg with
  | nil => simp [findRepo] at hf
  | cons p rest ih =>
    obtain ⟨rh, ts⟩ := p
    rw [List.pairwise_cons] at hpair
    obtain ⟨hhead, htail⟩ := hpair
    by_cases hb1 : strLt r.name rh.name = true
    · have hne : rh.name ≠ r.name := by
        intro hc
        rw [hc] at hb1
        exact absurd hb1 (by simp [strLt_irrefl])
      have hnone : findRepo rest r.name = none := by
        rw [findRepo_eq_none_iff]
        intro q hq hc
        have h2 := hhead q hq
        rw [hc] at h2
        exact absurd (strLt_trans hb1 h2) (by simp [strLt_irrefl])
      rw [show findRepo ((rh, ts) :: rest) r.name = findRepo rest r.name
        from by simp [findRepo, hne], hnone] at hf
      exact absurd hf (by simp)
    · by_cases hb2 : strLt rh.name r.name = true
      · have hne : rh.name ≠ r.name := by
          intro hc
          rw [hc] at hb2
          exact absurd hb2 (by simp [strLt_irrefl])
        have hstep : aggInsert ((rh, ts) :: rest) r t a
            = (rh, ts) :: aggInsert rest r t a := by
          simp [aggInsert, hb1, hb2]
        simp only [findRepo, hne, if_false] at hf
        rw [hstep]
        simp only [findRepo, hne, if_false]
        exact ih hf htail (fun q hq => hinner q (List.mem_cons_of_mem _ hq))
      · have heq : rh.name = r.name :=
          strLt_antisymm (by simpa using hb2) (by simpa using hb1)
        have hstep : aggInsert ((rh, ts) :: rest) r t a
            = (rh, insertTopicAction ts t a) :: rest := by
          simp [aggInsert, hb1, hb2]
        have hfind_eq : findRepo ((rh, ts) :: rest) r.name = some (rh, ts) := by
          unfold findRepo
          rw [if_pos heq]
        rw [hfind_eq] at hf
        simp only [Option.some.injEq, Prod.mk.injEq] at hf
        obtain ⟨hq1, hq2⟩ := hf
        subst hq1
        subst hq2
        rw [hstep]
        refine ⟨insertTopicAction ts t a, ?_, ?_, ?_⟩
        · unfold findRepo
          rw [if_pos heq]
        · exact (insertTopic_first_seen ts t a
            (hinner (rh, ts) (List.mem_cons_self _ _))).1
        · exact (insertTopic_first_seen ts t a
            (hinner (rh, ts) (List.mem_cons_self _ _))).2

/-- Witness for C4 at a concrete aggregation: a second sighting of topic 5
(title B) and of repo `acme/widgets` (other api url) keeps the first-seen
entry fields. -/
theorem spec_C4_first_seen_witness :
    ∃ ts1,
      findRepo
          (aggInsert [({ name := "acme/widgets", url := "api" },
              [({ url := "urlA", number := 5, title := "A" }, [Action.Write])])]
            { name := "acme/widgets", url := "api2" }
            { url := "urlB", number := 5, title := "B" } .Assist)
          "acme/widgets"
        = some ({ name := "acme/widgets", url := "api" }, ts1) ∧
      (∀ t0 as0,
        findTopic [({ url := "urlA", number := 5, title := "A" }, [Action.Write])] 5
          = some (t0, as0) →
        findTopic ts1 5 = some (t0, insertAction as0 .Assist)) ∧
      (findTopic [({ url := "urlA", number := 5, title := "A" }, [Action.Write])] 5
          = none →
        findTopic ts1 5 = some ({ url := "urlB", number := 5, title := "B" },
          [Action.Assist])) :=
  spec_C4_first_seen
    [({ name := "acme/widgets", url := "api" },
      [({ url := "urlA", number := 5, title := "A" }, [Action.Write])])]
    { name := "acme/widgets", url := "api2" }
    { url := "urlB", number := 5, title := "B" } .Assist
    (by decide)
    { name := "acme/widgets", url := "api" }
    [({ url := "urlA", number := 5, title := "A" }, [Action.Write])]
    (by decide)

/-! ## Sortedness invariant of the aggregation (C5) -/
theorem insertAction_mem {as : List Action} {a b : Action}
    (h : b ∈ insertAction as a) : b = a ∨ b ∈ as := by
  induction as with
  | nil => simp [insertAction] at h; exact Or.inl h
  | cons c rest ih =>
    unfold insertAction at h
    by_cases h1 : a.rank < c.rank
    · rw [if_pos h1, List.mem_cons] at h
      rcases h with h | h
      · exact Or.inl h
      · exact Or.inr h
    · rw [if_neg h1] at h
      by_cases h2 : a.rank = c.rank
      · rw [if_pos h2] at h
        exact Or.inr h
      · rw [if_neg h2, List.mem_cons] at h
        rcases h with h | h
        · exact Or.inr (by simp [h])
        · rcases ih h with h3 | h3
          · exact Or.inl h3
          · exact Or.inr (by simp [h3])

theorem insertAction_sorted {as : List Action} {a : Action}
    (hs : sortedActions as) : sortedActions (insertAction as a) := by
  induction as with
  | nil => simp [insertAction, sortedActions]
  | cons c rest ih =>
    obtain ⟨hhead, htail⟩ := List.pairwise_cons.mp hs
    unfold insertAction
    by_cases h1 : a.rank < c.rank
    · rw [if_pos h1]
      refine List.pairwise_cons.mpr ⟨?_, hs⟩
      intro x hx
      rw [List.mem_cons] at hx
      rcases hx with hx | hx
      · subst hx
        exact h1
      · exact Nat.lt_trans h1 (hhead x hx)
    · rw [if_neg h1]
      by_cases h2 : a.rank = c.rank
      · rw [if_pos h2]
        exact hs
      · rw [if_neg h2]
        refine List.pairwise_cons.mpr ⟨?_, ih htail⟩
        intro x hx
        rcases insertAction_mem hx with hx2 | hx2
        · subst hx2
          omega
        · exact hhead x hx2

theorem insertTopicAction_mem {ts : List (Topic × List Action)} {t : Topic}
    {a : Action} {q : Topic × List Action} (h : q ∈ insertTopicAction ts t a) :
    q ∈ ts ∨ q = (t, [a]) ∨ ∃ w ∈ ts, q = (w.1, insertAction w.2 a) := by
  induction ts with
  | nil =>
    simp [insertTopicAction] at h
    exact Or.inr (Or.inl h)
  | cons p rest ih =>
    obtain ⟨t0, as⟩ := p
    unfold insertTopicAction at h
    by_cases h1 : t.number < t0.number
    · rw [if_pos h1, List.mem_cons] at h
      rcases h with h | h
      · exact Or.inr (Or.inl h)
      · exact Or.inl h
    · rw [if_neg h1] at h
      by_cases h2 : t.number = t0.number
      · rw [if_pos h2, List.mem_cons] at h
        rcases h with h | h
        · exact Or.inr (Or.inr ⟨(t0, as), by simp, by simp [h]⟩)
        · exact Or.inl (by simp [h])
      · rw [if_neg h2, List.mem_cons] at h
        rcases h with h | h
        · exact Or.inl (by simp [h])
        · rcases ih h with h3 | h3 | h3
          · exact Or.inl (by simp [h3])
          · exact Or.inr (Or.inl h3)
          · obtain ⟨w, hw, hq⟩ := h3
            exact Or.inr (Or.inr ⟨w, by simp [hw], hq⟩)

theorem insertTopicAction_sorted {ts : List (Topic × List Action)} {t : Topic}
    {a : Action} (hs : sortedTopics ts) : sortedTopics (insertTopicAction ts t a) := by
  induction ts with
  | nil => simp [insertTopicAction, sortedTopics]
  | cons p rest ih =>
    obtain ⟨t0, as⟩ := p
    obtain ⟨hhead, htail⟩ := List.pairwise_cons.mp hs
    unfold insertTopicAction
    by_cases h1 : t.number < t0.number
    · rw [if_pos h1]
      refine List.pairwise_cons.mpr ⟨?_, hs⟩
      intro x hx
      rw [List.mem_cons] at hx
      rcases hx with hx | hx
      · subst hx
        exact h1
      · have := hhead x hx
        dsimp only at this ⊢
        omega
    · rw [if_neg h1]
      by_cases h2 : t.number = t0.number
      · rw [if_pos h2]
        refine List.pairwise_cons.mpr ⟨?_, htail⟩
        intro x hx
        exact hhead x hx
      · rw [if_neg h2]
        refine List.pairwise_cons.mpr ⟨?_, ih htail⟩
        intro x hx
        rcases insertTopicAction_mem hx with hx2 | hx2 | hx2
        · exact hhead x hx2
        · subst hx2
          dsimp only
          omega
        · obtain ⟨w, hw, hq⟩ := hx2
          subst hq
          exact hhead w hw

theorem aggInsert_mem {agg : Agg} {r : Repo} {t : Topic} {a : Action}
    {p : Repo × List (Topic × List Action)} (h : p ∈ aggInsert agg r t a) :
    p ∈ agg ∨ p = (r, insertTopicAction [] t a) ∨
      ∃ w ∈ agg, p = (w.1, insertTopicAction w.2 t a) := by
  induction agg with
  | nil =>
    simp [aggInsert] at h
    exact Or.inr (Or.inl h)
  | cons q rest ih =>
    obtain ⟨r0, ts⟩ := q
    unfold aggInsert at h
    by_cases h1 : strLt r.name r0.name = true
    · rw [if_pos h1, List.mem_cons] at h
      rcases h with h | h
      · exact Or.inr (Or.inl h)
      · exact Or.inl h
    · rw [if_neg h1] at h
      by_cases h2 : strLt r0.name r.name = true
      · rw [if_pos h2, List.mem_cons] at h
        rcases h with h | h
        · exact Or.inl (by simp [h])
        · rcases ih h with h3 | h3 | h3
          · exact Or.inl (by simp [h3])
          · exact Or.inr (Or.inl h3)
          · obtain ⟨w, hw, hq⟩ := h3
            exact Or.inr (Or.inr ⟨w, by simp [hw], hq⟩)
      · rw [if_neg h2, List.mem_cons] at h
        rcases h with h | h
        · exact Or.inr (Or.inr ⟨(r0, ts), by simp, by simp [h]⟩)
        · exact Or.inl (by simp [h])

theorem aggInsert_names_sorted {agg : Agg} {r : Repo} {t : Topic} {a : Action}
    (hs : agg.Pairwise (fun p q => strLt p.1.name q.1.name = true)) :
    (aggInsert agg r t a).Pairwise (fun p q => strLt p.1.name q.1.name = true) := by
  induction agg with
  | nil => simp [aggInsert]
  | cons q rest ih =>
    obtain ⟨r0, ts⟩ := q
    obtain ⟨hhead, htail⟩ := List.pairwise_cons.mp hs
    unfold aggInsert
    by_cases h1 : strLt r.name r0.name = true
    · rw [if_pos h1]
      refine List.pairwise_cons.mpr ⟨?_, hs⟩
      intro x hx
      rw [List.mem_cons] at hx
      rcases hx with hx | hx
      · subst hx
        exact h1
      · exact strLt_trans h1 (hhead x hx)
    · rw [if_neg h1]
      by_cases h2 : strLt r0.name r.name = true
      · rw [if_pos h2]
        refine List.pairwise_cons.mpr ⟨?_, ih htail⟩
        intro x hx
        rcases aggInsert_mem hx with hx2 | hx2 | hx2
        · exact hhead x hx2
        · subst hx2
          exact h2
        · obtain ⟨w, hw, hq⟩ := hx2
          subst hq
          exact hhead w hw
      · rw [if_neg h2]
        refine List.pairwise_cons.mpr ⟨?_, htail⟩
        intro x hx
        exact hhead x hx

theorem insertTopicAction_actions_sorted {ts : List (Topic × List Action)}
    {t : Topic} {a : Action} (hs : ∀ q ∈ ts, sortedActions q.2)
    {q : Topic × List Action} (hq : q ∈ insertTopicAction ts t a) :
    sortedActions q.2 := by
  rcases insertTopicAction_mem hq with h | h | h
  · exact hs q h
  · subst h
    simp [sortedActions]
  · obtain ⟨w, hw, hqe⟩ := h
    subst hqe
    exact insertAction_sorted (hs w hw)

theorem aggInsert_wf {agg : Agg} {r : Repo} {t : Topic} {a : Action}
    (hw : wfAgg agg) : wfAgg (aggInsert agg r t a) := by
  obtain ⟨⟨hpair, hinner⟩, hact⟩ := hw
  refine ⟨⟨aggInsert_names_sorted hpair, ?_⟩, ?_⟩
  · intro p hp
    rcases aggInsert_mem hp with h | h | h
    · exact hinner p h
    · subst h
      simp [insertTopicAction, sortedTopics]
    · obtain ⟨w, hw2, hq⟩ := h
      subst hq
      exact insertTopicAction_sorted (hinner w hw2)
  · intro p hp q hq
    rcases aggInsert_mem hp with h | h | h
    · exact hact p h q hq
    · subst h
      simp only at hq
      rcases insertTopicAction_mem hq with h2 | h2 | h2
      · simp at h2
      · subst h2
        simp [sortedActions]
      · obtain ⟨w, hw2, hq2⟩ := h2
        simp at hw2
    · obtain ⟨w, hw2, hq2⟩ := h
      subst hq2
      exact insertTopicAction_actions_sorted (hact w hw2) hq

theorem step_ok_cases {args : Args} {cutoff : Int} {agg agg2 : Agg} {e : Event}
    (h : step args cutoff agg e = .ok agg2) :
    agg2 = agg ∨ ∃ r t a, agg2 = aggInsert agg r t a := by
  unfold step at h
  split at h
  · exact Or.inl (by injection h with h2; exact h2.symm)
  · split at h
    · exact Or.inl (by injection h with h2; exact h2.symm)
    · split at h
      · exact Or.inl (by injection h with h2; exact h2.symm)
      · split at h
        · exact Or.inl (by injection h with h2; exact h2.symm)
        · unfold handlePayload at h
          cases hp : e.payload with
          | none =>
            rw [hp] at h
            exact Or.inl (by injection h with h2; exact h2.symm)
          | some p =>
            rw [hp] at h
            dsimp only at h
            cases hc : classifyPayload args.username p with
            | error m => rw [hc] at h; simp at h
            | ok o =>
              rw [hc] at h
              cases o with
              | none => exact Or.inl (by injection h with h2; exact h2.symm)
              | some pair =>
                obtain ⟨t, a⟩ := pair
                simp only [Except.ok.injEq] at h
                exact Or.inr ⟨_, t, a, h.symm⟩

theorem foldEvents_wf {args : Args} {cutoff : Int} {agg agg2 : Agg}
    {events : List Event} (hw : wfAgg agg)
    (h : foldEvents args cutoff agg events = .ok agg2) : wfAgg agg2 := by
  induction events generalizing agg with
  | nil =>
    simp only [foldEvents, Except.ok.injEq] at h
    rw [← h]
    exact hw
  | cons e rest ih =>
    unfold foldEvents at h
    cases hs : step args cutoff agg e with
    | error err => rw [hs] at h; simp at h
    | ok agg3 =>
      rw [hs] at h
      rcases step_ok_cases hs with h2 | ⟨r, t, a, h2⟩
      · subst h2
        exact ih hw h
      · subst h2
        exact ih (aggInsert_wf hw) h

theorem runDigest_wf {args : Args} {now : Int} {events : List Event} {agg : Agg}
    (h : runDigest args now events = .ok agg) : wfAgg agg := by
  simp only [runDigest] at h
  split at h
  · exact foldEvents_wf ⟨⟨List.Pairwise.nil, by simp⟩, by simp⟩ h
  · simp at h

/-- C5: any aggregation the run produces is strictly sorted at all three
levels — repos ascending by name, topics ascending by number within each
repo, and each interaction-kind set ascending in the fixed `Action`
priority order (Code, Write, Review, Comment, Assist) — independent of the
order events were folded in; the renderer walks these lists in order, so
rendering one aggregated structure is deterministic. -/
theorem spec_C5_render_order (args : Args) (now : Int) (events : List Event)
    (agg : Agg) (h : runDigest args now events = .ok agg) :
    agg.Pairwise (fun p q => strLt p.1.name q.1.name = true) ∧
      (∀ p ∈ agg, sortedTopics p.2) ∧
      (∀ p ∈ agg, ∀ q ∈ p.2, sortedActions q.2) := by
  obtain ⟨⟨h1, h2⟩, h3⟩ := runDigest_wf h
  exact ⟨h1, h2, h3⟩

/-- Witness for C5 at a concrete run (the aggregation of `cxOld, cxE1,
cxE2`). -/
theorem spec_C5_render_order_witness :
    ([({ name := "acme/widgets", url := "api/acme/widgets" },
        [({ url := "urlA", number := 5, title := "A" },
          [Action.Write, Action.Assist])])] : Agg).Pairwise
        (fun p q => strLt p.1.name q.1.name = true) ∧
      (∀ p ∈ ([({ name := "acme/widgets", url := "api/acme/widgets" },
        [({ url := "urlA", number := 5, title := "A" },
          [Action.Write, Action.Assist])])] : Agg), sortedTopics p.2) ∧
      (∀ p ∈ ([({ name := "acme/widgets", url := "api/acme/widgets" },
        [({ url := "urlA", number := 5, title := "A" },
          [Action.Write, Action.Assist])])] : Agg), ∀ q ∈ p.2,
        sortedActions q.2) :=
  spec_C5_render_order cxArgs 100 [cxOld, cxE1, cxE2] _ (by decide)

/-! ## Sanitizer lemmas (C6) -/
theorem collapseWsAux_head_not_ws (l : List Char) :
    ∀ c, (collapseWsAux true l).head? = some c → regexWs c = false := by
  induction l with
  | nil => intro c h; simp [collapseWsAux] at h
  | cons d rest ih =>
    intro c h
    unfold collapseWsAux at h
    by_cases hd : regexWs d = true
    · rw [hd] at h
      simp only [if_true] at h
      exact ih c h
    · rw [Bool.not_eq_true] at hd
      rw [hd] at h
      simp only [Bool.false_eq_true, if_false, List.head?_cons,
        Option.some.injEq] at h
      rw [← h]
      exact hd

theorem collapseWsAux_chain (l : List Char) (b : Bool) :
    (collapseWsAux b l).Chain'
      (fun x y => ¬(regexWs x = true ∧ regexWs y = true)) := by
  induction l generalizing b with
  | nil => simp [collapseWsAux]
  | cons d rest ih =>
    unfold collapseWsAux
    by_cases hd : regexWs d = true
    · rw [hd]
      simp only [if_true]
      cases b
      · simp only [Bool.false_eq_true, if_false]
        refine List.chain'_cons'.mpr ⟨?_, ih true⟩
        intro y hy
        have hns := collapseWsAux_head_not_ws rest y hy
        intro hc
        rw [hns] at hc
        exact absurd hc.2 (by simp)
      · simp only [if_true]
        exact ih true
    · rw [Bool.not_eq_true] at hd
      rw [hd]
      simp only [Bool.false_eq_true, if_false]
      refine List.chain'_cons'.mpr ⟨?_, ih false⟩
      intro y _
      intro hc
      rw [hd] at hc
      exact absurd hc.1 (by simp)

theorem collapseWsAux_mem {l : List Char} {b : Bool} {c : Char}
    (h : c ∈ collapseWsAux b l) : c = ' ' ∨ c ∈ l := by
  induction l generalizing b with
  | nil => simp [collapseWsAux] at h
  | cons d rest ih =>
    unfold collapseWsAux at h
    by_cases hd : regexWs d = true
    · rw [hd] at h
      simp only [if_true] at h
      cases b
      · simp only [Bool.false_eq_true, if_false, List.mem_cons] at h
        rcases h with h | h
        · exact Or.inl h
        · rcases ih h with h2 | h2
          · exact Or.inl h2
          · exact Or.inr (by simp [h2])
      · simp only [if_true] at h
        rcases ih h with h2 | h2
        · exact Or.inl h2
        · exact Or.inr (by simp [h2])
    · rw [Bool.not_eq_true] at hd
      rw [hd] at h
      simp only [Bool.false_eq_true, if_false, List.mem_cons] at h
      rcases h with h | h
      · exact Or.inr (by simp [h])
      · rcases ih h with h2 | h2
        · exact Or.inl h2
        · exact Or.inr (by simp [h2])

/-- C6: the sanitizer removes every character outside the permitted class
`[0-9a-zA-Z /():;.&+-]` and leaves no two adjacent whitespace characters
(runs collapsed to one space); `"Fix bug!! <script>"` sanitizes to
`"Fix bug script"`; sanitization happens only in rendering — the topic
stores the raw issue/PR title unchanged, and the rendered line is the one
that applies `sanitize`. -/
theorem spec_C6_sanitizer :
    sanitize "Fix bug!! <script>" = "Fix bug script" ∧
    (∀ s : String, ∀ c ∈ (sanitize s).data, permittedChar c = true) ∧
    (∀ s : String, (sanitize s).data.Chain'
      (fun x y => ¬(regexWs x = true ∧ regexWs y = true))) ∧
    (∀ issue : Issue, (Topic.fromIssue issue).title = issue.title) ∧
    (∀ (pr : PullRequest) (t : Topic), Topic.tryFromPR pr = .ok t →
      pr.title = some t.title) ∧
    (∀ t : Topic, t.render
      = "[#" ++ toString t.number ++ "](" ++ t.url ++ ") (_"
          ++ sanitize t.title ++ "_)") := by
  refine ⟨by decide, ?_, ?_, ?_, ?_, ?_⟩
  · intro s c hc
    unfold sanitize at hc
    rcases collapseWsAux_mem hc with h | h
    · subst h
      decide
    · exact (List.mem_filter.mp h).2
  · intro s
    unfold sanitize
    exact collapseWsAux_chain _ false
  · intro issue
    rfl
  · intro pr t h
    unfold Topic.tryFromPR at h
    cases hu : pr.html_url with
    | none => rw [hu] at h; exact absurd h (by simp)
    | some u =>
      rw [hu] at h
      cases ht : pr.title with
      | none =>
        rw [ht] at h
        exact absurd h (by simp)
      | some ti =>
        rw [ht] at h
        simp only [Except.ok.injEq] at h
        rw [← h]
  · intro t
    rfl

/-! ## PR conversion failure propagation (C7) -/
theorem tryFromPR_error {pr : PullRequest}
    (h : pr.html_url.isNone || pr.title.isNone) :
    ∃ m, Topic.tryFromPR pr = .error m := by
  unfold Topic.tryFromPR
  cases hu : pr.html_url with
  | none => exact ⟨"HTML URL missing", rfl⟩
  | some u =>
    cases ht : pr.title with
    | none => exact ⟨"PR title missing", rfl⟩
    | some ti =>
      rw [hu, ht] at h
      simp at h

theorem classify_malformed_error {u : String} {p : EventPayload} {e : Event}
    (hp : e.payload = some p) (hm : prMalformed e = true) :
    ∃ m, classifyPayload u p = .error m := by
  unfold prMalformed at hm
  rw [hp] at hm
  cases p with
  | IssuesEvent a issue => simp at hm
  | IssueCommentEvent a issue comment => simp at hm
  | PullRequestEvent a pr =>
    simp only [Bool.and_eq_true, decide_eq_true_eq] at hm
    obtain ⟨hne, hmiss⟩ := hm
    obtain ⟨m, hm2⟩ := tryFromPR_error hmiss
    cases a <;> first
      | exact absurd rfl hne
      | exact ⟨m, by simp [classifyPayload, hm2, Except.map]⟩
  | PullRequestReviewEvent a pr =>
    obtain ⟨m, hm2⟩ := tryFromPR_error hm
    exact ⟨m, by simp [classifyPayload, hm2, Except.map]⟩
  | PullRequestReviewCommentEvent a pr =>
    obtain ⟨m, hm2⟩ := tryFromPR_error hm
    exact ⟨m, by simp [classifyPayload, hm2, Except.map]⟩
  | other => simp at hm

theorem step_malformed_error {args : Args} {cutoff : Int} {agg : Agg} {e : Event}
    (hp : specPasses args cutoff e = true) (hm : prMalformed e = true) :
    ∃ m, step args cutoff agg e = .error (.missingField m) := by
  rw [step_eq_filters, if_pos hp]
  have hpay : ∃ p, e.payload = some p := by
    unfold prMalformed at hm
    cases hps : e.payload with
    | none => rw [hps] at hm; simp at hm
    | some p => exact ⟨p, rfl⟩
  obtain ⟨p, hps⟩ := hpay
  obtain ⟨m, hc⟩ := @classify_malformed_error args.username p e hps hm
  refine ⟨m, ?_⟩
  unfold handlePayload
  rw [hps]
  dsimp only
  rw [hc]

theorem foldEvents_malformed {args : Args} {cutoff : Int} {agg : Agg}
    {events : List Event}
    (h : ∃ e ∈ events, specPasses args cutoff e = true ∧ prMalformed e = true) :
    ∃ m, foldEvents args cutoff agg events = .error (.missingField m) := by
  induction events generalizing agg with
  | nil => simp at h
  | cons e rest ih =>
    obtain ⟨e0, he0, hp0, hm0⟩ := h
    rw [List.mem_cons] at he0
    unfold foldEvents
    rcases he0 with rfl | he0
    · obtain ⟨m, hm⟩ := @step_malformed_error args cutoff agg e0 hp0 hm0
      rw [hm]
      exact ⟨m, rfl⟩
    · cases hs : step args cutoff agg e with
      | error err =>
        obtain ⟨m, hm⟩ := step_error_missing hs
        subst hm
        exact ⟨m, rfl⟩
      | ok agg2 => exact ih ⟨e0, he0, hp0, hm0⟩

/-- C7: converting a PR-derived event (pull-request, review, or
review-comment payload) to a topic fails exactly when the PR lacks its
display URL or its title; and when such a malformed PR event passes the
filters (and the window check passes), the whole run aborts with the
missing-field error instead of skipping the event. -/
theorem spec_C7_pr_missing_field :
    (∀ pr : PullRequest, (∃ t, Topic.tryFromPR pr = .ok t)
      ↔ (pr.html_url ≠ none ∧ pr.title ≠ none)) ∧
    (∀ (args : Args) (now : Int) (events : List Event),
      (∃ e ∈ events, e.created_at < now - (args.event_cutoff : Int)) →
      (∃ e ∈ events, specPasses args (now - (args.event_cutoff : Int)) e = true
        ∧ prMalformed e = true) →
      ∃ m, runDigest args now events = .error (.missingField m)) := by
  constructor
  · intro pr
    unfold Topic.tryFromPR
    cases hu : pr.html_url with
    | none => simp
    | some u =>
      cases ht : pr.title with
      | none => simp
      | some ti => simp
  · intro args now events hwin hmal
    unfold runDigest
    have hany : events.any
        (fun e => decide (e.created_at < now - (args.event_cutoff : Int))) = true := by
      rw [List.any_eq_true]
      obtain ⟨e, he, holder⟩ := hwin
      exact ⟨e, he, by simpa using holder⟩
    rw [if_pos hany]
    exact foldEvents_malformed hmal

/-- C8-cex: a failing metadata lookup aborts the run, but the line for the
repository rendered before the failure has already been emitted — the
output is neither the complete digest nor empty. -/
theorem spec_C8_partial_output_counterexample :
    (renderRun c8Lookup c8Agg).2.isSome = true
      ∧ (renderRun c8Lookup c8Agg).1 ≠ "" := by decide

/-- C8 (amended): a failed repository-metadata lookup, or resolved metadata
without a display URL, aborts the rendering run with a fatal error (no
retry, no skip); the run fails on the first bad repository in name order,
and the output already emitted is exactly the lines of the repositories
preceding it — the output is the complete digest if and only if every
aggregated repository resolves with a display URL. -/
theorem spec_C8_render_abort (lookup : String → Option Repository) (agg : Agg) :
    ((renderRun lookup agg).2 = none ↔ ∀ p ∈ agg, repoOk lookup p = true) ∧
    (renderRun lookup agg).1
      = concatStrings ((agg.takeWhile (repoOk lookup)).map (renderedLine lookup)) := by
  induction agg with
  | nil =>
    refine ⟨?_, ?_⟩
    · simp [renderRun]
    · rfl
  | cons p rest ih =>
    obtain ⟨r, ts⟩ := p
    obtain ⟨ih1, ih2⟩ := ih
    cases hl : lookup r.url with
    | none =>
      have hko : repoOk lookup (r, ts) = false := by
        unfold repoOk
        dsimp only
        rw [hl]
      have hr : renderRun lookup ((r, ts) :: rest)
          = ("", some (.getRepoFailed r.url)) := by
        unfold renderRun
        rw [hl]
      refine ⟨?_, ?_⟩
      · rw [hr]
        constructor
        · intro hc
          simp at hc
        · intro hall
          have h2 := hall (r, ts) (List.mem_cons_self _ _)
          rw [hko] at h2
          exact absurd h2 (by simp)
      · rw [hr, List.takeWhile_cons, hko]
        simp [concatStrings]
    | some meta =>
      cases hh : meta.html_url with
      | none =>
        have hko : repoOk lookup (r, ts) = false := by
          unfold repoOk
          dsimp only
          rw [hl]
          dsimp only
          rw [hh]
          rfl
        have hr : renderRun lookup ((r, ts) :: rest)
            = ("", some .noHtmlUrl) := by
          unfold renderRun
          rw [hl]
          dsimp only
          rw [hh]
        refine ⟨?_, ?_⟩
        · rw [hr]
          constructor
          · intro hc
            simp at hc
          · intro hall
            have h2 := hall (r, ts) (List.mem_cons_self _ _)
            rw [hko] at h2
            exact absurd h2 (by simp)
        · rw [hr, List.takeWhile_cons, hko]
          simp [concatStrings]
      | some hurl =>
        have hko : repoOk lookup (r, ts) = true := by
          unfold repoOk
          dsimp only
          rw [hl]
          dsimp only
          rw [hh]
          rfl
        have hline : renderedLine lookup (r, ts) = renderRepoLine r.name hurl ts := by
          unfold renderedLine
          dsimp only
          rw [hl]
          dsimp only
          rw [hh]
        have hr : renderRun lookup ((r, ts) :: rest)
            = (renderRepoLine r.name hurl ts ++ (renderRun lookup rest).1,
               (renderRun lookup rest).2) := by
          conv_lhs => rw [renderRun]
          rw [hl]
          dsimp only
          rw [hh]
        refine ⟨?_, ?_⟩
        · rw [hr]
          dsimp only
          rw [ih1]
          constructor
          · intro hall q hq
            rw [List.mem_cons] at hq
            rcases hq with hq | hq
            · subst hq
              exact hko
            · exact hall q hq
          · intro hall q hq
            exact hall q (List.mem_cons_of_mem _ hq)
        · rw [hr]
          dsimp only
          rw [ih2, List.takeWhile_cons, hko]
          simp only [if_true, List.map_cons]
          rw [show concatStrings (renderedLine lookup (r, ts)
              :: List.map (renderedLine lookup) (List.takeWhile (repoOk lookup) rest))
            = renderedLine lookup (r, ts)
              ++ concatStrings (List.map (renderedLine lookup)
                  (List.takeWhile (repoOk lookup) rest)) from rfl]
          rw [hline]

end GhSummary

